import Mathlib

set_option maxHeartbeats 1000000
set_option maxRecDepth 4000

/-! Verification development for the DOS filename translation layer of
    pcbasic (src/pcbasic/basic/devices/dosnames.py).

    Modelling conventions.  Byte strings and unicode strings are both
    modelled as `List Char` (the code runs under Python 2 where the two
    freely mix; all behaviour relevant here is per-character).  One
    directory level of the host filesystem is a `Directory`: a list of
    entries, each carrying a name and a file/directory flag; a whole
    filesystem is a map from native paths to directory listings.  Python
    exceptions are modelled with `Except`: `raise error.BASICError(code)`
    becomes `PyError.basicError code` and an out-of-range string index
    (`name[-1]` on an empty string) becomes `PyError.indexError`.
    `os.sep` is the forward slash (POSIX host). -/

/-- Error codes carried by `error.BASICError`; the named ones are the codes
    raised inside dosnames.py, `other` stands for any caller-supplied code. -/
inductive ErrKind where
  | badFileNumber
  | pathNotFound
  | badFileName
  | other (n : Nat)
deriving DecidableEq

/-- A Python-level exception: a raised `BASICError`, or the `IndexError`
    produced by indexing into an empty string. -/
inductive PyError where
  | basicError (k : ErrKind)
  | indexError
deriving DecidableEq

/-- Punctuation byte codes of `ALLOWABLE_CHARS` (dosnames.py line 14):
    space ! # $ % & apostrophe ( ) - @ ^ _ backquote left-brace right-brace ~ -/
def ALLOWABLE_PUNCT : List Nat :=
  [32, 33, 35, 36, 37, 38, 39, 40, 41, 45, 64, 94, 95, 96, 123, 125, 126]

/-- Membership in `ALLOWABLE_CHARS` = ascii letters + digits + the
    punctuation above (dosnames.py line 14). -/
def allowable (c : Char) : Bool :=
  decide ((65 ≤ c.toNat ∧ c.toNat ≤ 90) ∨ (97 ≤ c.toNat ∧ c.toNat ≤ 122) ∨
          (48 ≤ c.toNat ∧ c.toNat ≤ 57) ∨ c.toNat ∈ ALLOWABLE_PUNCT)

/-- Python `strip()` whitespace: tab, newline, vertical tab, form feed,
    carriage return, space. -/
def isPySpace (c : Char) : Bool := decide (c.toNat = 32 ∨ (9 ≤ c.toNat ∧ c.toNat ≤ 13))

/-- Python `strip()`: drop leading and trailing whitespace. -/
def pyStrip (s : List Char) : List Char :=
  ((s.dropWhile isPySpace).reverse.dropWhile isPySpace).reverse

/-- Python `encode('ascii', errors='replace')`: every non-ASCII character
    becomes a question mark. -/
def toAscii (c : Char) : Char := if c.toNat ≤ 127 then c else '?'

/-- Python bytes `upper()`: ASCII lowercase to uppercase, all else fixed. -/
def upperChar (c : Char) : Char :=
  if 97 ≤ c.toNat ∧ c.toNat ≤ 122 then Char.ofNat (c.toNat - 32) else c

/-- The normalisation prefix of `split_dosname` (dosnames.py line 109):
    `name.encode('ascii', errors='replace').strip().upper()`. -/
def dosPreprocess (name : List Char) : List Char :=
  (pyStrip (name.map toAscii)).map upperChar

/-- Python `name.split('.', 1)`: everything before the first dot, and the
    remainder after it when a dot is present. -/
def splitFirstDot : List Char → List Char × Option (List Char)
  | [] => ([], none)
  | c :: rest =>
    if c = '.' then ([], some rest)
    else
      let p := splitFirstDot rest
      (c :: p.1, p.2)

/-- `split_dosname` (dosnames.py lines 105-131): normalise, special-case the
    literal dot and dot-dot names, split on the first dot, truncate the trunk
    to 8 and the extension to 3 characters, and when `mark_shortened` is set
    replace the last kept character with a plus sign if truncation changed
    the component. -/
def split_dosname (name : List Char) (mark_shortened : Bool) : List Char × List Char :=
  let n := dosPreprocess name
  if n = ['.'] then ([], [])
  else if n = ['.', '.'] then ([], ['.'])
  else
    let p := splitFirstDot n
    let trunk := p.1
    let ext := p.2.getD []
    let strunk := trunk.take 8
    let sext := ext.take 3
    if mark_shortened then
      ((if strunk = trunk then strunk else strunk.take 7 ++ ['+']),
       (if sext = ext then sext else sext.take 2 ++ ['+']))
    else (strunk, sext)

/-- Python `ljust`: pad on the right with spaces to the given width. -/
def padTo (n : Nat) (s : List Char) : List Char := s ++ List.replicate (n - s.length) ' '

/-- `join_dosname` (dosnames.py lines 133-140): reattach the dot whenever the
    extension is non-empty or the trunk is empty; optionally pad the trunk
    field to 8 and the dotted extension field to 4 characters. -/
def join_dosname (trunk ext : List Char) (padding : Bool) : List Char :=
  let ext2 := if ext ≠ [] ∨ trunk = [] then '.' :: ext else ext
  if padding then padTo 8 trunk ++ padTo 4 ext2 else trunk ++ ext2

/-- Newline character; a regex dot does not match it. -/
def nlChar : Char := Char.ofNat 10

/-- `match_wildcard` (dosnames.py lines 213-227).  The source compiles the
    mask to an anchored regex in which a question mark becomes `.` (any one
    character except newline), a star becomes `.` followed by `*` (any run of
    non-newline characters) and every other character is escaped to a literal;
    this definition implements that regex's matching relation directly, with
    the star clause quantifying over how many characters the star consumes. -/
def match_wildcard (name mask : List Char) : Bool :=
  match mask with
  | [] => name.isEmpty
  | c :: ms =>
    if c = '?' then
      match name with
      | [] => false
      | n :: ns => decide (n ≠ nlChar) && match_wildcard ns ms
    else if c = '*' then
      (List.range (name.length + 1)).any (fun k =>
        (name.take k).all (fun a => decide (a ≠ nlChar)) && match_wildcard (name.drop k) ms)
    else
      match name with
      | [] => false
      | n :: ns => decide (n = c) && match_wildcard ns ms

/-- One entry of a native directory listing: a name plus whether the entry
    is a subdirectory (else it is a regular file). -/
structure DirEntry where
  ename : List Char
  entryIsDir : Bool
deriving DecidableEq

/-- One directory level of the native filesystem, as `os.listdir` and the
    `os.path.isdir`/`os.path.isfile` probes observe it. -/
structure Directory where
  entries : List DirEntry
deriving DecidableEq

/-- `istype` (dosnames.py lines 142-149): whether an entry of the given name
    and kind exists in the directory. -/
def istype (d : Directory) (name : List Char) (isdir : Bool) : Bool :=
  d.entries.any (fun e => decide (e.ename = name ∧ e.entryIsDir = isdir))

/-- `os.listdir`: the native names present in the directory. -/
def listdir (d : Directory) : List (List Char) := d.entries.map (fun e => e.ename)

/-- Lexicographic byte-order comparison of two names, as Python compares
    strings. -/
def strLe : List Char → List Char → Bool
  | [], _ => true
  | _ :: _, [] => false
  | x :: xs, y :: ys =>
    decide (x.toNat < y.toNat) || (decide (x = y) && strLe xs ys)

/-- Insert a name into an already sorted list of names. -/
def sortInsert (x : List Char) : List (List Char) → List (List Char)
  | [] => [x]
  | y :: ys => if strLe x y then x :: y :: ys else y :: sortInsert x ys

/-- Python `sorted` on a list of names (insertion sort; on names, which
    compare by a total antisymmetric order, every sort agrees). -/
def sortNames : List (List Char) → List (List Char)
  | [] => []
  | x :: xs => sortInsert x (sortNames xs)

/-- Python `sorted(os.listdir(path))` (dosnames.py line 165). -/
def sortedNames (d : Directory) : List (List Char) := sortNames (listdir d)

/-- `match_dosname` (dosnames.py lines 151-172): reject names with non-ASCII
    bytes, probe the dossified name as typed, then scan the sorted listing for
    the first entry of the right kind whose 8.3 split equals the target's. -/
def match_dosname (dosname : List Char) (d : Directory) (isdir : Bool) :
    Option (List Char) :=
  if ¬ dosname.all (fun c => decide (c.toNat ≤ 127)) then none
  else if istype d dosname isdir then some dosname
  else
    let p := split_dosname dosname false
    (sortedNames d).find? (fun f => decide (split_dosname f false = p) && istype d f isdir)

/-- Continuation of `match_filename` after default-extension and trailing-dot
    handling (dosnames.py lines 194-211): probe the name as constructed, split
    it, reject characters outside the allowable set, look for a dossified
    match, and otherwise synthesise the 8.3 name or raise the caller's error.
    Python's `if fullname:` treats both `None` and the empty string as a
    failed match, hence the `getD []` collapse. -/
def matchCore (name : List Char) (d : Directory) (name_err : Option ErrKind)
    (isdir : Bool) : Except PyError (List Char) :=
  if istype d name isdir then .ok name
  else
    let p := split_dosname name false
    if ¬ ((p.1 ++ p.2).all allowable) then .error (.basicError .badFileName)
    else
      let dosname := join_dosname p.1 p.2 false
      let fullname := (match_dosname dosname d isdir).getD []
      if fullname ≠ [] then .ok fullname
      else
        match name_err with
        | none => .ok dosname
        | some e => .error (.basicError e)

/-- `match_filename` (dosnames.py lines 174-211).  `name_err = none` models a
    falsy `name_err` (create mode).  When both branches' guards need
    `name[-1]` on an empty `name`, Python raises `IndexError`. -/
def match_filename (name defext : List Char) (d : Directory)
    (name_err : Option ErrKind) (isdir : Bool) : Except PyError (List Char) :=
  if defext ≠ [] ∧ '.' ∉ name then
    matchCore (name ++ '.' :: defext) d name_err isdir
  else
    match name.getLast? with
    | none => .error .indexError
    | some c =>
      if c = '.' ∧ '.' ∉ name.dropLast then
        if istype d name isdir then .ok name
        else matchCore name.dropLast d name_err isdir
      else matchCore name d name_err isdir

/-- Loop body of `dos_normpath` (dosnames.py lines 66-80), carrying the loop
    index `i` explicitly: delete a dot element in place, delete a dot-dot
    element together with its predecessor when one exists, advance otherwise. -/
def dosNormpathAux (i : Nat) (elements : List (List Char)) : List (List Char) :=
  if h : i < elements.length then
    if elements[i] = ['.'] then dosNormpathAux i (elements.eraseIdx i)
    else if elements[i] = ['.', '.'] then
      if 0 < i then dosNormpathAux (i - 1) ((elements.eraseIdx i).eraseIdx (i - 1))
      else dosNormpathAux i (elements.eraseIdx i)
    else dosNormpathAux (i + 1) elements
  else elements
termination_by 2 * elements.length - i
decreasing_by
  all_goals try simp only [List.length_eraseIdx]
  all_goals repeat' split
  all_goals omega

/-- `dos_normpath` (dosnames.py lines 66-80). -/
def dos_normpath (elements : List (List Char)) : List (List Char) :=
  dosNormpathAux 0 elements

/-- Python `s.split(sep)` with an explicit separator: no run-collapsing, and
    the empty string splits to one empty element. -/
def pySplit (sep : Char) : List Char → List (List Char)
  | [] => [[]]
  | c :: rest =>
    let p := pySplit sep rest
    if c = sep then [] :: p
    else
      match p with
      | [] => [[c]]
      | h :: t => (c :: h) :: t

/-- POSIX `os.path.join` for the shapes used here: a component starting with
    the separator resets the path, otherwise a separator is interposed unless
    the left part is empty or already ends in one. -/
def ospath_join (a b : List Char) : List Char :=
  if b.head? = some '/' then b
  else if a = [] then b
  else if a.getLast? = some '/' then a ++ b
  else a ++ '/' :: b

/-- A filesystem: the directory listing visible at each native path. -/
def FS : Type := List Char → Directory

/-- The codepage converter consumed by `NameConverter`, reduced to the one
    operation used: `str_to_unicode`. -/
structure NameConverter where
  str_to_unicode : List Char → List Char

/-- The identity codepage: every allowable byte maps to itself. -/
def idConv : NameConverter := ⟨fun s => s⟩

/-- The per-element loop of `native_path_elements` (dosnames.py lines 56-61):
    skip empty elements, match each remaining one as a directory, raising the
    caller's path error when matching fails. -/
def walkElements (fs : FS) (path_err : ErrKind) :
    List (List Char) → List Char → Except PyError (List Char)
  | [], path => .ok path
  | e :: rest, path =>
    if e = [] then walkElements fs path_err rest path
    else
      match match_filename e [] (fs path) (some path_err) true with
      | .error err => .error err
      | .ok m => walkElements fs path_err rest (ospath_join path m)

/-- `NameConverter.native_path_elements` (dosnames.py lines 27-63): convert
    the drive-relative DOS path through the codepage, reject forward slashes,
    reject an unmounted root, split on backslashes (prepending the native cwd
    for relative paths), strip whitespace from elements, pop the final element
    as the bare name unless `join_name`, normalise dot and dot-dot, then walk
    the elements through `match_filename`, and slice the result at the root. -/
def native_path_elements (cv : NameConverter) (fs : FS)
    (path_without_drive : List Char) (path_err : ErrKind)
    (native_root native_cwd : List Char) (join_name : Bool) :
    Except PyError (List Char × List Char × List Char) :=
  let p := cv.str_to_unicode path_without_drive
  if '/' ∈ p then .error (.basicError .badFileNumber)
  else if native_root = [] then .error (.basicError .pathNotFound)
  else
    let elements0 :=
      if p ≠ [] ∧ p.head? = some '\\' then pySplit '\\' p
      else pySplit '/' native_cwd ++ pySplit '\\' p
    let elements1 := elements0.map pyStrip
    let name := if join_name ∨ elements1 = [] then [] else elements1.getLastD []
    let elements2 := if join_name ∨ elements1 = [] then elements1 else elements1.dropLast
    let elements := dos_normpath elements2
    let baselen := native_root.length + (if native_root.getLast? = some '/' then 0 else 1)
    match walkElements fs path_err elements native_root with
    | .error e => .error e
    | .ok path => .ok (path.take baselen, path.drop baselen, name)

/-! Helper lemmas about characters and preprocessing. -/

theorem charToNat_ofNat {n : Nat} (h : n < 55296) : (Char.ofNat n).toNat = n := by
  have hv : n.isValidChar := Or.inl h
  rw [Char.ofNat, dif_pos hv]
  simp [Char.ofNatAux, Char.toNat, UInt32.toNat]

theorem allowable_le127 {c : Char} (h : allowable c = true) : c.toNat ≤ 127 := by
  simp [allowable, ALLOWABLE_PUNCT] at h
  omega

theorem allowable_toAscii {c : Char} (h : allowable c = true) : toAscii c = c := by
  simp [toAscii, allowable_le127 h]

theorem allowable_ne_dot {c : Char} (h : allowable c = true) : c ≠ '.' := by
  intro hc
  subst hc
  simp [allowable, ALLOWABLE_PUNCT] at h

theorem allowable_upperChar {c : Char} (h : allowable c = true) :
    allowable (upperChar c) = true := by
  unfold upperChar
  split
  · rename_i hc
    have hval : (Char.ofNat (c.toNat - 32)).toNat = c.toNat - 32 :=
      charToNat_ofNat (by omega)
    simp [allowable, hval]
    omega
  · exact h

theorem map_id_of_all {f : Char → Char} {l : List Char} (h : ∀ x ∈ l, f x = x) :
    l.map f = l := by
  induction l with
  | nil => rfl
  | cons a t ih =>
    simp only [List.map_cons, h a (by simp)]
    rw [ih (fun x hx => h x (by simp [hx]))]

theorem pyStrip_subset {l : List Char} : ∀ x ∈ pyStrip l, x ∈ l := by
  intro x hx
  unfold pyStrip at hx
  rw [List.mem_reverse] at hx
  have h1 := (List.dropWhile_sublist (l := (l.dropWhile isPySpace).reverse)
    isPySpace).subset hx
  rw [List.mem_reverse] at h1
  exact (List.dropWhile_sublist (l := l) isPySpace).subset h1

theorem dosPreprocess_allowable {name : List Char} (h : name.all allowable = true) :
    (dosPreprocess name).all allowable = true := by
  unfold dosPreprocess
  rw [List.all_eq_true] at h
  rw [map_id_of_all (fun x hx => allowable_toAscii (h x hx))]
  rw [List.all_eq_true]
  intro x hx
  rw [List.mem_map] at hx
  obtain ⟨y, hy, rfl⟩ := hx
  exact allowable_upperChar (h y (pyStrip_subset y hy))

theorem no_dot_of_all_allowable {l : List Char} (h : l.all allowable = true) :
    '.' ∉ l := by
  intro hd
  exact absurd rfl (allowable_ne_dot (List.all_eq_true.mp h _ hd))

theorem splitFirstDot_no_dot {l : List Char} (h : '.' ∉ l) :
    splitFirstDot l = (l, none) := by
  induction l with
  | nil => rfl
  | cons a t ih =>
    simp only [splitFirstDot]
    rw [if_neg (by intro hc; exact h (by simp [hc]))]
    rw [ih (by intro hc; exact h (by simp [hc]))]

theorem take_all_allowable {l : List Char} (k : Nat) (h : l.all allowable = true) :
    (l.take k).all allowable = true := by
  rw [List.all_eq_true] at h ⊢
  intro x hx
  exact h x (List.take_subset k l hx)

/-- Claim C9: `join_dosname` of two empty components is the single dot — the
    dot is appended whenever the extension is non-empty or the trunk is
    empty — which is also what makes join of split of the dot name reproduce
    the dot name. -/
theorem C9_join_empty :
    join_dosname [] [] false = ['.'] ∧
    join_dosname (split_dosname ['.'] false).1 (split_dosname ['.'] false).2 false = ['.'] ∧
    (∀ trunk ext : List Char,
      ((ext ≠ [] ∨ trunk = []) → join_dosname trunk ext false = trunk ++ '.' :: ext) ∧
      (ext = [] → trunk ≠ [] → join_dosname trunk ext false = trunk)) := by
  refine ⟨rfl, rfl, fun trunk ext => ⟨fun h => ?_, fun h1 h2 => ?_⟩⟩
  · simp only [join_dosname, if_pos h]
    simp
  · subst h1
    have hc : ¬(([] : List Char) ≠ [] ∨ trunk = []) := by
      push_neg
      exact ⟨rfl, h2⟩
    simp only [join_dosname, if_neg hc]
    simp

/-- Witness for C9 at concrete components. -/
theorem C9_witness :
    join_dosname ['A'] ['B'] false = ['A', '.', 'B'] ∧
    join_dosname ['A'] [] false = ['A'] :=
  ⟨(C9_join_empty.2.2 ['A'] ['B']).1 (by decide),
   (C9_join_empty.2.2 ['A'] []).2 rfl (by decide)⟩

theorem matchCore_not_index (name : List Char) (d : Directory)
    (name_err : Option ErrKind) (isdir : Bool) :
    matchCore name d name_err isdir ≠ .error .indexError := by
  cases name_err with
  | none => simp only [matchCore]; split_ifs <;> simp
  | some e => simp only [matchCore]; split_ifs <;> simp

/-- Claim C10: `match_filename` with both the name and the default extension
    empty evaluates `name[-1]` on the empty string and fails with an index
    error rather than any `BASICError`; with either of them non-empty no such
    out-of-range access happens. -/
theorem C10_empty_name :
    (∀ (d : Directory) (name_err : Option ErrKind) (isdir : Bool),
      match_filename [] [] d name_err isdir = .error .indexError) ∧
    (∀ (name defext : List Char) (d : Directory) (name_err : Option ErrKind)
       (isdir : Bool), name ≠ [] ∨ defext ≠ [] →
      match_filename name defext d name_err isdir ≠ .error .indexError) := by
  constructor
  · intro d name_err isdir
    simp [match_filename]
  · intro name defext d name_err isdir h
    unfold match_filename
    split
    · exact matchCore_not_index _ _ _ _
    · rename_i hcond
      split
      · rename_i heq
        exfalso
        rw [List.getLast?_eq_none_iff] at heq
        subst heq
        rcases h with h | h
        · exact h rfl
        · exact hcond ⟨h, by simp⟩
      · split
        · split
          · simp
          · exact matchCore_not_index _ _ _ _
        · exact matchCore_not_index _ _ _ _

/-- Witness for C10: the empty call raises the index error, a one-character
    name does not. -/
theorem C10_witness :
    match_filename [] [] ⟨[]⟩ none false = .error .indexError ∧
    match_filename ['A'] [] ⟨[]⟩ none false ≠ .error .indexError :=
  ⟨C10_empty_name.1 ⟨[]⟩ none false,
   C10_empty_name.2 ['A'] [] ⟨[]⟩ none false (Or.inl (by decide))⟩

/-- Claim C3: resolving the trailing-single-dot name FOO. in a directory
    with no literal FOO. entry but with a FOO entry of the requested kind
    probes the dotted literal first, then strips the dot and returns FOO
    without erroring at that stage. -/
theorem C3_trailing_dot :
    ∀ (d : Directory) (name_err : Option ErrKind) (isdir : Bool),
      istype d ['F', 'O', 'O'] isdir = true →
      d.entries.all (fun e => decide (e.ename ≠ ['F', 'O', 'O', '.'])) = true →
      match_filename ['F', 'O', 'O', '.'] [] d name_err isdir = .ok ['F', 'O', 'O'] := by
  intro d name_err isdir h1 h2
  have hist : istype d ['F', 'O', 'O', '.'] isdir = false := by
    rw [istype, List.any_eq_false]
    intro e he
    have hne := List.all_eq_true.mp h2 e he
    simp only [decide_eq_true_eq] at hne
    simp [hne]
  simp [match_filename, matchCore, hist, h1]

/-- Witness for C3: a directory holding just the file FOO. -/
theorem C3_witness :
    match_filename ['F', 'O', 'O', '.'] [] ⟨[⟨['F', 'O', 'O'], false⟩]⟩
      (some (.other 53)) false = .ok ['F', 'O', 'O'] :=
  C3_trailing_dot ⟨[⟨['F', 'O', 'O'], false⟩]⟩ (some (.other 53)) false
    (by decide) (by decide)

/-- Claim C8: `native_path_elements` fails with BadFileNumber on any
    forward slash in the converted path, and otherwise with PathNotFound on
    an empty native root; both failures are the same for every filesystem,
    so no filesystem lookup is attempted. -/
theorem C8_early_errors :
    ∀ (cv : NameConverter) (fs : FS) (p : List Char) (path_err : ErrKind)
      (root cwd : List Char) (jn : Bool),
      ('/' ∈ cv.str_to_unicode p →
        native_path_elements cv fs p path_err root cwd jn =
          .error (.basicError .badFileNumber)) ∧
      ('/' ∉ cv.str_to_unicode p → root = [] →
        native_path_elements cv fs p path_err root cwd jn =
          .error (.basicError .pathNotFound)) := by
  intro cv fs p path_err root cwd jn
  constructor
  · intro h
    simp [native_path_elements, h]
  · intro h1 h2
    simp [native_path_elements, h1, h2]

/-- Witness for C8: a slashed path, and an unmounted (empty) root. -/
theorem C8_witness :
    native_path_elements idConv (fun _ => ⟨[]⟩) ['a', '/', 'b'] (.other 76)
      ['/', 'r'] [] false = .error (.basicError .badFileNumber) ∧
    native_path_elements idConv (fun _ => ⟨[]⟩) ['B'] (.other 76)
      [] [] false = .error (.basicError .pathNotFound) :=
  ⟨(C8_early_errors idConv (fun _ => ⟨[]⟩) ['a', '/', 'b'] (.other 76)
      ['/', 'r'] [] false).1 (by decide),
   (C8_early_errors idConv (fun _ => ⟨[]⟩) ['B'] (.other 76)
      [] [] false).2 (by decide) rfl⟩

theorem split_dosname_allowable {name : List Char} (h : name.all allowable = true) :
    ((split_dosname name false).1 ++ (split_dosname name false).2).all allowable = true := by
  have hp := dosPreprocess_allowable h
  have hnd := no_dot_of_all_allowable hp
  have h1 : dosPreprocess name ≠ ['.'] := by
    intro he; rw [he] at hnd; simp at hnd
  have h2 : dosPreprocess name ≠ ['.', '.'] := by
    intro he; rw [he] at hnd; simp at hnd
  simp only [split_dosname, if_neg h1, if_neg h2, splitFirstDot_no_dot hnd]
  simp [take_all_allowable 8 hp]

theorem matchCore_create_ok (name : List Char) (d : Directory) (isdir : Bool)
    (h : ((split_dosname name false).1 ++ (split_dosname name false).2).all allowable
      = true) : ∃ r, matchCore name d none isdir = .ok r := by
  simp only [matchCore]
  by_cases h1 : istype d name isdir = true
  · rw [if_pos h1]
    exact ⟨_, rfl⟩
  · rw [if_neg h1, if_neg (by simp [h])]
    split
    · exact ⟨_, rfl⟩
    · exact ⟨_, rfl⟩

/-- Claim C1 (amended): the hash, ampersand and percent characters are all
    inside the allowable set, so a raw name built from allowable characters
    (percent included) resolves without error in create mode, while a name
    whose 8.3 split contains a character outside the set fails with
    BadFileName when it does not exist as typed. -/
theorem C1_allowable_chars :
    allowable '#' = true ∧ allowable '&' = true ∧ allowable '%' = true ∧
    (∀ (d : Directory) (isdir : Bool) (name : List Char),
      name ≠ [] → name.all allowable = true →
      ∃ r, match_filename name [] d none isdir = .ok r) ∧
    (∀ (d : Directory) (isdir : Bool) (name_err : Option ErrKind)
       (name : List Char) (c : Char),
      name.getLast? = some c → c ≠ '.' → istype d name isdir = false →
      ((split_dosname name false).1 ++ (split_dosname name false).2).all allowable
        = false →
      match_filename name [] d name_err isdir = .error (.basicError .badFileName)) := by
  refine ⟨by decide, by decide, by decide, ?_, ?_⟩
  · intro d isdir name hne hall
    obtain ⟨c, hc⟩ := Option.isSome_iff_exists.mp (List.getLast?_isSome.mpr hne)
    have hcm : c ∈ name := List.mem_of_mem_getLast? (by simp [hc])
    have hcd : c ≠ '.' := allowable_ne_dot (List.all_eq_true.mp hall c hcm)
    unfold match_filename
    rw [if_neg (by simp)]
    simp only [hc]
    rw [if_neg (by intro hx; exact hcd hx.1)]
    exact matchCore_create_ok name d isdir (split_dosname_allowable hall)
  · intro d isdir name_err name c hc hcd hist hbad
    unfold match_filename
    rw [if_neg (by simp)]
    simp only [hc]
    rw [if_neg (by intro hx; exact hcd hx.1)]
    simp only [matchCore]
    rw [if_neg (by simp [hist]), if_pos (by simp [hbad])]

/-- Witness for C1: a name holding hash, ampersand and percent resolves in
    create mode; a name holding a plus sign fails with BadFileName. -/
theorem C1_witness :
    (∃ r, match_filename ['A', '#', '&', '%'] [] ⟨[]⟩ none false = .ok r) ∧
    match_filename ['A', '+'] [] ⟨[]⟩ (some .pathNotFound) false =
      .error (.basicError .badFileName) :=
  ⟨C1_allowable_chars.2.2.2.1 ⟨[]⟩ false ['A', '#', '&', '%'] (by decide) (by decide),
   C1_allowable_chars.2.2.2.2 ⟨[]⟩ false (some .pathNotFound) ['A', '+'] '+'
     rfl (by decide) (by decide) (by decide)⟩

/-- Claim C1 counterexample: percent is in the allowable set, so a raw name
    containing percent that does not exist as typed does not fail with
    BadFileName — it resolves (create mode) or raises the caller's own
    not-found error (read mode). -/
theorem C1_counterexample :
    allowable '%' = true ∧
    match_filename ['A', 'B', '%'] [] ⟨[]⟩ none false = .ok ['A', 'B', '%'] ∧
    match_filename ['A', 'B', '%'] [] ⟨[]⟩ (some (.other 53)) false =
      .error (.basicError (.other 53)) := by
  refine ⟨by decide, rfl, rfl⟩

theorem take_ne_of_lt {l : List Char} {n : Nat} (h : n < l.length) :
    l.take n ≠ l := by
  intro he
  have := congrArg List.length he
  simp at this
  omega

/-- Claim C6: `split_dosname` always truncates the trunk to at most 8 and the
    extension to at most 3 characters, and with `mark_shortened` the last kept
    character becomes a plus sign exactly when truncation changed the
    component: an 8-character trunk stays unshortened, a 9-character trunk
    becomes 7 characters plus the marker, and an overlong extension becomes 2
    characters plus the marker. -/
theorem C6_truncation :
    (∀ (name : List Char) (ms : Bool),
      (split_dosname name ms).1.length ≤ 8 ∧ (split_dosname name ms).2.length ≤ 3) ∧
    (∀ name : List Char,
      dosPreprocess name ≠ ['.'] → dosPreprocess name ≠ ['.', '.'] →
      split_dosname name true =
        ((if (splitFirstDot (dosPreprocess name)).1.length ≤ 8
            then (splitFirstDot (dosPreprocess name)).1
            else (splitFirstDot (dosPreprocess name)).1.take 7 ++ ['+']),
         (if ((splitFirstDot (dosPreprocess name)).2.getD []).length ≤ 3
            then (splitFirstDot (dosPreprocess name)).2.getD []
            else ((splitFirstDot (dosPreprocess name)).2.getD []).take 2 ++ ['+']))) ∧
    split_dosname ['A', 'B', 'C', 'D', 'E', 'F', 'G', 'H'] true =
      (['A', 'B', 'C', 'D', 'E', 'F', 'G', 'H'], []) ∧
    split_dosname ['A', 'B', 'C', 'D', 'E', 'F', 'G', 'H', 'I'] true =
      (['A', 'B', 'C', 'D', 'E', 'F', 'G', '+'], []) ∧
    split_dosname ['A', '.', 'B', 'C', 'D', 'E'] true = (['A'], ['B', 'C', '+']) := by
  refine ⟨?_, ?_, rfl, rfl, rfl⟩
  · intro name ms
    simp only [split_dosname]
    split_ifs <;> simp
  · intro name h1 h2
    simp only [split_dosname, if_neg h1, if_neg h2, if_true, Prod.mk.injEq]
    constructor
    · by_cases hl : (splitFirstDot (dosPreprocess name)).1.length ≤ 8
      · rw [if_pos (List.take_of_length_le hl), if_pos hl, List.take_of_length_le hl]
      · rw [if_neg (take_ne_of_lt (by omega)), if_neg hl, List.take_take]
        norm_num
    · by_cases hl : ((splitFirstDot (dosPreprocess name)).2.getD []).length ≤ 3
      · rw [if_pos (List.take_of_length_le hl), if_pos hl, List.take_of_length_le hl]
      · rw [if_neg (take_ne_of_lt (by omega)), if_neg hl, List.take_take]
        norm_num

/-- Witness for C6 at the 9-character trunk. -/
theorem C6_witness :
    split_dosname ['A', 'B', 'C', 'D', 'E', 'F', 'G', 'H', 'I'] true =
      ((if (splitFirstDot (dosPreprocess
             ['A', 'B', 'C', 'D', 'E', 'F', 'G', 'H', 'I'])).1.length ≤ 8
          then (splitFirstDot (dosPreprocess
             ['A', 'B', 'C', 'D', 'E', 'F', 'G', 'H', 'I'])).1
          else (splitFirstDot (dosPreprocess
             ['A', 'B', 'C', 'D', 'E', 'F', 'G', 'H', 'I'])).1.take 7 ++ ['+']),
       (if ((splitFirstDot (dosPreprocess
             ['A', 'B', 'C', 'D', 'E', 'F', 'G', 'H', 'I'])).2.getD []).length ≤ 3
          then (splitFirstDot (dosPreprocess
             ['A', 'B', 'C', 'D', 'E', 'F', 'G', 'H', 'I'])).2.getD []
          else ((splitFirstDot (dosPreprocess
             ['A', 'B', 'C', 'D', 'E', 'F', 'G', 'H', 'I'])).2.getD []).take 2 ++ ['+'])) :=
  C6_truncation.2.1 ['A', 'B', 'C', 'D', 'E', 'F', 'G', 'H', 'I'] (by decide) (by decide)

theorem char_toNat_inj {c d : Char} (h : c.toNat = d.toNat) : c = d :=
  Char.ext (UInt32.toNat.inj h)

theorem allowable_not_space {c : Char} (h : allowable c = true) (h2 : c ≠ ' ') :
    isPySpace c = false := by
  have h32 : c.toNat ≠ 32 := fun he => h2 (char_toNat_inj (by rw [he]; rfl))
  simp only [allowable, ALLOWABLE_PUNCT, decide_eq_true_eq] at h
  simp only [isPySpace, decide_eq_false_iff_not]
  simp at h ⊢
  omega

theorem dropWhile_id_of_head {p : Char → Bool} {l : List Char}
    (h : ∀ c, l.head? = some c → p c = false) : l.dropWhile p = l := by
  cases l with
  | nil => rfl
  | cons a t => rw [List.dropWhile_cons, if_neg (by simp [h a rfl])]

theorem pyStrip_eq_self {l : List Char}
    (hh : ∀ c, l.head? = some c → isPySpace c = false)
    (hl : ∀ c, l.getLast? = some c → isPySpace c = false) : pyStrip l = l := by
  unfold pyStrip
  rw [dropWhile_id_of_head hh]
  rw [dropWhile_id_of_head (fun c hc => hl c (by rwa [List.head?_reverse] at hc))]
  exact List.reverse_reverse l

theorem dosPreprocess_id {l : List Char}
    (hgood : ∀ c ∈ l, c = '.' ∨ allowable c = true)
    (hup : ∀ c ∈ l, ¬(97 ≤ c.toNat ∧ c.toNat ≤ 122))
    (hh : ∀ c, l.head? = some c → isPySpace c = false)
    (hl : ∀ c, l.getLast? = some c → isPySpace c = false) :
    dosPreprocess l = l := by
  unfold dosPreprocess
  have h1 : l.map toAscii = l := map_id_of_all (fun x hx => by
    rcases hgood x hx with h | h
    · subst h; rfl
    · exact allowable_toAscii h)
  rw [h1, pyStrip_eq_self hh hl]
  exact map_id_of_all (fun x hx => by
    unfold upperChar
    rw [if_neg (hup x hx)])

theorem strip_cond_of_allowable {l : List Char}
    (hall : ∀ c ∈ l, allowable c = true)
    (hh : l.head? ≠ some ' ') (hl : l.getLast? ≠ some ' ') :
    (∀ c, l.head? = some c → isPySpace c = false) ∧
    (∀ c, l.getLast? = some c → isPySpace c = false) := by
  constructor
  · intro c hc
    exact allowable_not_space (hall c (List.mem_of_mem_head? (by simp [hc])))
      (fun he => hh (he ▸ hc))
  · intro c hc
    exact allowable_not_space (hall c (List.mem_of_mem_getLast? (by simp [hc])))
      (fun he => hl (he ▸ hc))

theorem splitFirstDot_append {t e : List Char} (h : '.' ∉ t) :
    splitFirstDot (t ++ '.' :: e) = (t, some e) := by
  induction t with
  | nil => simp [splitFirstDot]
  | cons a ts ih =>
    simp only [List.cons_append, splitFirstDot, List.append_eq]
    rw [if_neg (by intro hc; exact h (by simp [hc]))]
    rw [ih (by intro hc; exact h (by simp [hc]))]

/-- Claim C2 counterexample: the single-space trunk with empty extension is
    made of allowable characters and is case-canonical, yet the round trip
    splits the joined name, strips the space and returns the dot name, not
    the original. -/
theorem C2_counterexample :
    ([' '] : List Char).length ≤ 8 ∧ ([] : List Char).length ≤ 3 ∧
    ([' '] ++ ([] : List Char)).all allowable = true ∧
    ([' '] ++ ([] : List Char)).all
      (fun c => !decide (97 ≤ c.toNat ∧ c.toNat ≤ 122)) = true ∧
    join_dosname (split_dosname (join_dosname [' '] [] false) false).1
        (split_dosname (join_dosname [' '] [] false) false).2 false ≠
      join_dosname [' '] [] false :=
  ⟨by decide, by decide, by decide, by decide, by decide⟩

/-- Claim C2 (amended): for every canonical pair — trunk of at most 8 and
    extension of at most 3 characters from the allowable set, holding no
    lowercase letter, and with no leading or trailing space in either
    component — join then split then join reproduces the joined name. -/
theorem C2_roundtrip :
    ∀ trunk ext : List Char,
      trunk.length ≤ 8 → ext.length ≤ 3 →
      (trunk ++ ext).all allowable = true →
      (trunk ++ ext).all (fun c => !decide (97 ≤ c.toNat ∧ c.toNat ≤ 122)) = true →
      trunk.head? ≠ some ' ' → trunk.getLast? ≠ some ' ' →
      ext.head? ≠ some ' ' → ext.getLast? ≠ some ' ' →
      join_dosname (split_dosname (join_dosname trunk ext false) false).1
          (split_dosname (join_dosname trunk ext false) false).2 false =
        join_dosname trunk ext false := by
  intro trunk ext hlt hle hall hup hth htl heh hel
  have hallT : ∀ c ∈ trunk, allowable c = true := fun c hc =>
    List.all_eq_true.mp hall c (by simp [hc])
  have hallE : ∀ c ∈ ext, allowable c = true := fun c hc =>
    List.all_eq_true.mp hall c (by simp [hc])
  have hupT : ∀ c ∈ trunk, ¬(97 ≤ c.toNat ∧ c.toNat ≤ 122) := fun c hc => by
    have h0 := List.all_eq_true.mp hup c (by simp [hc])
    simp only [Bool.not_eq_true', decide_eq_false_iff_not] at h0
    exact h0
  have hupE : ∀ c ∈ ext, ¬(97 ≤ c.toNat ∧ c.toNat ≤ 122) := fun c hc => by
    have h0 := List.all_eq_true.mp hup c (by simp [hc])
    simp only [Bool.not_eq_true', decide_eq_false_iff_not] at h0
    exact h0
  have hdotT : '.' ∉ trunk := fun hc => allowable_ne_dot (hallT '.' hc) rfl
  have hdotE : '.' ∉ ext := fun hc => allowable_ne_dot (hallE '.' hc) rfl
  by_cases ht0 : trunk = []
  · by_cases he0 : ext = []
    · subst ht0; subst he0; decide
    · subst ht0
      obtain ⟨e, es, rfl⟩ := List.exists_cons_of_ne_nil he0
      have hj : join_dosname [] (e :: es) false = '.' :: e :: es := by
        simp [join_dosname]
      rw [hj]
      have hsc := strip_cond_of_allowable hallE heh hel
      have hpre : dosPreprocess ('.' :: e :: es) = '.' :: e :: es := by
        apply dosPreprocess_id
        · intro c hc
          rw [List.mem_cons] at hc
          rcases hc with rfl | hc
          · exact Or.inl rfl
          · exact Or.inr (hallE c hc)
        · intro c hc
          rw [List.mem_cons] at hc
          rcases hc with rfl | hc
          · decide
          · exact hupE c hc
        · intro c hc
          simp at hc
          subst hc
          decide
        · intro c hc
          rw [List.getLast?_cons_cons] at hc
          exact hsc.2 c hc
      have hne1 : dosPreprocess ('.' :: e :: es) ≠ ['.'] := by
        rw [hpre]; simp
      have hne2 : dosPreprocess ('.' :: e :: es) ≠ ['.', '.'] := by
        rw [hpre]
        intro hx
        have : e = '.' := by
          have := congrArg (fun l => List.get? l 1) hx
          simpa using this
        exact hdotE (by simp [this])
      simp only [split_dosname, if_neg hne1, if_neg hne2, hpre]
      have hsfd : splitFirstDot ('.' :: e :: es) = ([], some (e :: es)) := by
        simp [splitFirstDot]
      simp only [hsfd]
      simp only [Option.getD_some, List.take_nil]
      rw [List.take_of_length_le hle]
      have hcne : ¬(e = '.' ∧ es = []) := by
        rintro ⟨rfl, -⟩
        exact hdotE (List.mem_cons_self _ _)
      simp [join_dosname, hcne]
  · obtain ⟨t, ts, rfl⟩ := List.exists_cons_of_ne_nil ht0
    have hscT := strip_cond_of_allowable hallT hth htl
    by_cases he0 : ext = []
    · subst he0
      have hj : join_dosname (t :: ts) [] false = t :: ts := by
        simp [join_dosname]
      rw [hj]
      have hpre : dosPreprocess (t :: ts) = t :: ts := by
        apply dosPreprocess_id
        · exact fun c hc => Or.inr (hallT c hc)
        · exact hupT
        · exact hscT.1
        · exact hscT.2
      have hne1 : dosPreprocess (t :: ts) ≠ ['.'] := by
        rw [hpre]
        intro hx
        exact hdotT (by rw [hx]; simp)
      have hne2 : dosPreprocess (t :: ts) ≠ ['.', '.'] := by
        rw [hpre]
        intro hx
        exact hdotT (by rw [hx]; simp)
      simp only [split_dosname, if_neg hne1, if_neg hne2, hpre,
        splitFirstDot_no_dot hdotT]
      simp only [Option.getD_none, List.take_nil]
      rw [List.take_of_length_le hlt]
      have hc1 : ¬(t = '.' ∧ ts = []) := by
        rintro ⟨rfl, -⟩
        exact hdotT (List.mem_cons_self _ _)
      have hc2 : ¬(t = '.' ∧ ts = ['.']) := by
        rintro ⟨rfl, -⟩
        exact hdotT (List.mem_cons_self _ _)
      simp [join_dosname, hc1, hc2]
    · obtain ⟨e, es, rfl⟩ := List.exists_cons_of_ne_nil he0
      have hj : join_dosname (t :: ts) (e :: es) false = (t :: ts) ++ '.' :: e :: es := by
        simp [join_dosname]
      rw [hj]
      have hscE := strip_cond_of_allowable hallE heh hel
      obtain ⟨x, hx⟩ := Option.isSome_iff_exists.mp
        (List.getLast?_isSome.mpr (List.cons_ne_nil e es))
      have hlastj : ((t :: ts) ++ '.' :: e :: es).getLast? = some x := by
        rw [List.getLast?_append, List.getLast?_cons_cons, hx]
        rfl
      have hpre : dosPreprocess ((t :: ts) ++ '.' :: e :: es) =
          (t :: ts) ++ '.' :: e :: es := by
        apply dosPreprocess_id
        · intro c hc
          rw [List.mem_append] at hc
          rcases hc with hc | hc
          · exact Or.inr (hallT c hc)
          · rw [List.mem_cons] at hc
            rcases hc with rfl | hc
            · exact Or.inl rfl
            · exact Or.inr (hallE c hc)
        · intro c hc
          rw [List.mem_append] at hc
          rcases hc with hc | hc
          · exact hupT c hc
          · rw [List.mem_cons] at hc
            rcases hc with rfl | hc
            · decide
            · exact hupE c hc
        · intro c hc
          have hhd : ((t :: ts) ++ '.' :: e :: es).head? = some t := rfl
          rw [hhd, Option.some.injEq] at hc
          subst hc
          exact hscT.1 t rfl
        · intro c hc
          rw [hlastj, Option.some.injEq] at hc
          subst hc
          exact hscE.2 x hx
      have hlenj : 2 < ((t :: ts) ++ '.' :: e :: es).length := by
        simp [List.length_append]
        omega
      have hne1 : (t :: ts) ++ '.' :: e :: es ≠ ['.'] := by
        intro hxx
        rw [hxx] at hlenj
        simp at hlenj
      have hne2 : (t :: ts) ++ '.' :: e :: es ≠ ['.', '.'] := by
        intro hxx
        rw [hxx] at hlenj
        simp at hlenj
      have hsfd : splitFirstDot ((t :: ts) ++ '.' :: e :: es) =
          (t :: ts, some (e :: es)) := splitFirstDot_append hdotT
      simp only [split_dosname, hpre, hsfd, if_neg hne1, if_neg hne2, Option.getD_some]
      rw [List.take_of_length_le hlt, List.take_of_length_le hle]
      simp only [Bool.false_eq_true, if_false]
      exact hj

/-- Witness for C2 at the canonical pair README TXT. -/
theorem C2_witness :
    join_dosname
        (split_dosname (join_dosname ['R', 'E', 'A', 'D', 'M', 'E'] ['T', 'X', 'T'] false)
          false).1
        (split_dosname (join_dosname ['R', 'E', 'A', 'D', 'M', 'E'] ['T', 'X', 'T'] false)
          false).2 false =
      join_dosname ['R', 'E', 'A', 'D', 'M', 'E'] ['T', 'X', 'T'] false :=
  C2_roundtrip ['R', 'E', 'A', 'D', 'M', 'E'] ['T', 'X', 'T'] (by decide) (by decide)
    (by decide) (by decide) (by decide) (by decide) (by decide) (by decide)

theorem mem_sortInsert {x y : List Char} {l : List (List Char)} :
    y ∈ sortInsert x l ↔ y = x ∨ y ∈ l := by
  induction l with
  | nil => simp [sortInsert]
  | cons a t ih =>
    simp only [sortInsert]
    split
    · simp [List.mem_cons]
    · simp only [List.mem_cons, ih]
      tauto

theorem mem_sortNames {y : List Char} {l : List (List Char)} :
    y ∈ sortNames l ↔ y ∈ l := by
  induction l with
  | nil => simp [sortNames]
  | cons a t ih =>
    simp only [sortNames, mem_sortInsert, ih, List.mem_cons]

/-- Claim C5: in a directory holding the case variants Notes.txt and
    notes.TXT but no entry named exactly NOTES.TXT, `match_dosname` for
    NOTES.TXT is exactly the first entry of the ascending sorted native
    listing whose 8.3 split is (NOTES, TXT) and which exists as a file —
    and such an entry exists; being a pure function of the directory state,
    the result is the same on every call. -/
theorem C5_first_sorted_match :
    ∀ d : Directory,
      istype d ['N', 'o', 't', 'e', 's', '.', 't', 'x', 't'] false = true →
      istype d ['n', 'o', 't', 'e', 's', '.', 'T', 'X', 'T'] false = true →
      d.entries.all
        (fun e => decide (e.ename ≠ ['N', 'O', 'T', 'E', 'S', '.', 'T', 'X', 'T'])) = true →
      match_dosname ['N', 'O', 'T', 'E', 'S', '.', 'T', 'X', 'T'] d false =
        (sortedNames d).find? (fun f =>
          decide (split_dosname f false = (['N', 'O', 'T', 'E', 'S'], ['T', 'X', 'T'])) &&
          istype d f false) ∧
      ((sortedNames d).find? (fun f =>
          decide (split_dosname f false = (['N', 'O', 'T', 'E', 'S'], ['T', 'X', 'T'])) &&
          istype d f false)).isSome = true := by
  intro d h1 h2 h3
  have hist : istype d ['N', 'O', 'T', 'E', 'S', '.', 'T', 'X', 'T'] false = false := by
    rw [istype, List.any_eq_false]
    intro e he
    have hne := List.all_eq_true.mp h3 e he
    simp only [decide_eq_true_eq] at hne
    simp [hne]
  constructor
  · rw [match_dosname]
    rw [if_neg (by decide), if_neg (by simp [hist])]
    rw [show split_dosname ['N', 'O', 'T', 'E', 'S', '.', 'T', 'X', 'T'] false =
      (['N', 'O', 'T', 'E', 'S'], ['T', 'X', 'T']) from by decide]
  · have hmem : ['N', 'o', 't', 'e', 's', '.', 't', 'x', 't'] ∈ sortedNames d := by
      rw [sortedNames, mem_sortNames, listdir]
      rw [istype, List.any_eq_true] at h1
      obtain ⟨e, he, hp⟩ := h1
      simp only [decide_eq_true_eq] at hp
      rw [List.mem_map]
      exact ⟨e, he, hp.1⟩
    have hp : (decide (split_dosname ['N', 'o', 't', 'e', 's', '.', 't', 'x', 't'] false =
        (['N', 'O', 'T', 'E', 'S'], ['T', 'X', 'T'])) &&
        istype d ['N', 'o', 't', 'e', 's', '.', 't', 'x', 't'] false) = true := by
      rw [Bool.and_eq_true]
      exact ⟨by decide, h1⟩
    exact List.find?_isSome.mpr ⟨_, hmem, hp⟩

/-- Witness for C5: the two-entry directory returns Notes.txt, the smaller
    name in byte order. -/
theorem C5_witness :
    match_dosname ['N', 'O', 'T', 'E', 'S', '.', 'T', 'X', 'T']
        ⟨[⟨['N', 'o', 't', 'e', 's', '.', 't', 'x', 't'], false⟩,
          ⟨['n', 'o', 't', 'e', 's', '.', 'T', 'X', 'T'], false⟩]⟩ false =
      (sortedNames ⟨[⟨['N', 'o', 't', 'e', 's', '.', 't', 'x', 't'], false⟩,
          ⟨['n', 'o', 't', 'e', 's', '.', 'T', 'X', 'T'], false⟩]⟩).find? (fun f =>
        decide (split_dosname f false = (['N', 'O', 'T', 'E', 'S'], ['T', 'X', 'T'])) &&
        istype ⟨[⟨['N', 'o', 't', 'e', 's', '.', 't', 'x', 't'], false⟩,
          ⟨['n', 'o', 't', 'e', 's', '.', 'T', 'X', 'T'], false⟩]⟩ f false) :=
  (C5_first_sorted_match ⟨[⟨['N', 'o', 't', 'e', 's', '.', 't', 'x', 't'], false⟩,
      ⟨['n', 'o', 't', 'e', 's', '.', 'T', 'X', 'T'], false⟩]⟩
    (by decide) (by decide) (by decide)).1

/-- Stack-based specification of dot handling, modelled from the spec's
    words: a dot element is removed unconditionally; a dot-dot element is
    removed together with the preceding real element when one exists and is
    otherwise silently dropped; every other element is kept. -/
def dosNormSpecAux (stack : List (List Char)) : List (List Char) → List (List Char)
  | [] => stack.reverse
  | e :: rest =>
    if e = ['.'] then dosNormSpecAux stack rest
    else if e = ['.', '.'] then dosNormSpecAux stack.tail rest
    else dosNormSpecAux (e :: stack) rest

/-- Specification form of `dos_normpath`. -/
def dosNormSpec (elements : List (List Char)) : List (List Char) :=
  dosNormSpecAux [] elements

theorem eraseIdx_take_self {l : List (List Char)} {i : Nat} (h : i < l.length) :
    (l.eraseIdx i).take i = l.take i := by
  rw [List.eraseIdx_eq_take_drop_succ,
    List.take_append_of_le_length (by rw [List.length_take]; omega)]
  exact List.take_of_length_le (by rw [List.length_take]; omega)

theorem eraseIdx_drop_self {l : List (List Char)} {i : Nat} (h : i < l.length) :
    (l.eraseIdx i).drop i = l.drop (i + 1) := by
  rw [List.eraseIdx_eq_take_drop_succ]
  exact List.drop_left' (by rw [List.length_take]; omega)

theorem eraseIdx_length_lt {l : List (List Char)} {i : Nat} (h : i < l.length) :
    (l.eraseIdx i).length = l.length - 1 := by
  rw [List.length_eraseIdx, if_pos h]

theorem take_succ_getElem {l : List (List Char)} {i : Nat} (h : i < l.length) :
    l.take (i + 1) = l.take i ++ [l[i]] := by
  rw [List.take_succ, List.getElem?_eq_getElem h]
  rfl

theorem dosNormpathAux_spec :
    ∀ (n i : Nat) (l : List (List Char)), 2 * l.length - i ≤ n → i ≤ l.length →
      (∀ e ∈ l.take i, e ≠ ['.'] ∧ e ≠ ['.', '.']) →
      dosNormpathAux i l = dosNormSpecAux (l.take i).reverse (l.drop i) := by
  intro n
  induction n with
  | zero =>
    intro i l hn hi hcl
    have hl0 : l.length = 0 := by omega
    have hle : l = [] := List.length_eq_zero.mp hl0
    subst hle
    have hi0 : i = 0 := by omega
    subst hi0
    simp [dosNormpathAux, dosNormSpecAux]
  | succ n ih =>
    intro i l hn hi hcl
    rw [dosNormpathAux]
    split
    · rename_i h
      have hdrop : l.drop i = l[i] :: l.drop (i + 1) := List.drop_eq_getElem_cons h
      by_cases h1 : l[i] = ['.']
      · rw [if_pos h1]
        rw [ih i (l.eraseIdx i)
          (by rw [eraseIdx_length_lt h]; omega)
          (by rw [eraseIdx_length_lt h]; omega)
          (by rw [eraseIdx_take_self h]; exact hcl)]
        rw [eraseIdx_take_self h, eraseIdx_drop_self h, hdrop, h1]
        rw [dosNormSpecAux, if_pos rfl]
      · by_cases h2 : l[i] = ['.', '.']
        · rw [if_neg h1, if_pos h2]
          by_cases h3 : 0 < i
          · rw [if_pos h3]
            have hl2 : (l.eraseIdx i).eraseIdx (i - 1) =
                l.take (i - 1) ++ l.drop (i + 1) := by
              rw [List.eraseIdx_eq_take_drop_succ (l.eraseIdx i) (i - 1)]
              have hsucc : i - 1 + 1 = i := by omega
              rw [hsucc, eraseIdx_drop_self h]
              rw [List.eraseIdx_eq_take_drop_succ,
                List.take_append_of_le_length (by rw [List.length_take]; omega),
                List.take_take]
              have hmin : min (i - 1) i = i - 1 := by omega
              rw [hmin]
            have htk : ((l.eraseIdx i).eraseIdx (i - 1)).take (i - 1) =
                l.take (i - 1) := by
              rw [hl2, List.take_append_of_le_length (by rw [List.length_take]; omega)]
              exact List.take_of_length_le (by rw [List.length_take]; omega)
            have hdp : ((l.eraseIdx i).eraseIdx (i - 1)).drop (i - 1) =
                l.drop (i + 1) := by
              rw [hl2]
              exact List.drop_left' (by rw [List.length_take]; omega)
            have htki : l.take i = l.take (i - 1) ++ [l[i - 1]] := by
              have h' : i - 1 < l.length := by omega
              have hts := take_succ_getElem h'
              rw [show i - 1 + 1 = i from by omega] at hts
              exact hts
            rw [ih (i - 1) ((l.eraseIdx i).eraseIdx (i - 1))
              (by rw [eraseIdx_length_lt (by rw [eraseIdx_length_lt h]; omega),
                    eraseIdx_length_lt h]; omega)
              (by rw [eraseIdx_length_lt (by rw [eraseIdx_length_lt h]; omega),
                    eraseIdx_length_lt h]; omega)
              (by rw [htk]; intro e he
                  exact hcl e (by rw [htki]; exact List.mem_append_left _ he))]
            rw [htk, hdp, hdrop, h2]
            rw [dosNormSpecAux, if_neg (by simp), if_pos rfl]
            rw [htki]
            simp only [List.reverse_append, List.reverse_cons, List.reverse_nil,
              List.nil_append, List.cons_append, List.tail_cons]
          · rw [if_neg h3]
            have hi0 : i = 0 := by omega
            subst hi0
            rw [ih 0 (l.eraseIdx 0)
              (by rw [eraseIdx_length_lt h]; omega)
              (by omega)
              (by simp)]
            rw [eraseIdx_drop_self h, hdrop, h2]
            simp only [List.take_zero, List.reverse_nil]
            rw [dosNormSpecAux, if_neg (by simp), if_pos rfl]
            rfl
        · rw [if_neg h1, if_neg h2]
          rw [ih (i + 1) l (by omega) (by omega)
            (by intro e he
                rw [take_succ_getElem h] at he
                rcases List.mem_append.mp he with he | he
                · exact hcl e he
                · rw [List.mem_singleton] at he
                  subst he
                  exact ⟨h1, h2⟩)]
          rw [take_succ_getElem h, hdrop]
          rw [dosNormSpecAux, if_neg h1, if_neg h2]
          simp only [List.reverse_append, List.reverse_cons, List.reverse_nil,
            List.nil_append, List.cons_append]
    · rename_i h
      rw [List.drop_eq_nil_of_le (by omega), List.take_of_length_le (by omega)]
      rw [dosNormSpecAux]
      simp

theorem dos_normpath_eq_spec (elements : List (List Char)) :
    dos_normpath elements = dosNormSpec elements := by
  rw [dos_normpath, dosNormSpec]
  have h := dosNormpathAux_spec (2 * elements.length) 0 elements (by omega) (by omega)
    (by simp)
  simpa using h

/-- Claim C4: `dos_normpath` agrees everywhere with the stack specification
    that removes every dot element unconditionally, removes each dot-dot
    together with its preceding real element, and silently drops a leading
    dot-dot; consequently resolving the backslash path A dot-dot B is, for
    every filesystem, root and cwd, the same call as resolving backslash B —
    the A element is cancelled before any filesystem lookup. -/
theorem C4_normpath :
    (∀ elements : List (List Char), dos_normpath elements = dosNormSpec elements) ∧
    (∀ (fs : FS) (root cwd : List Char) (path_err : ErrKind),
      native_path_elements idConv fs ['\\', 'A', '\\', '.', '.', '\\', 'B'] path_err
          root cwd false =
        native_path_elements idConv fs ['\\', 'B'] path_err root cwd false) := by
  constructor
  · exact dos_normpath_eq_spec
  · intro fs root cwd path_err
    by_cases hr : root = []
    · simp [native_path_elements, idConv, hr]
    · have h1 : dos_normpath [[], ['A'], ['.', '.']] = [[]] := by
        rw [dos_normpath_eq_spec]
        decide
      have h2 : dos_normpath [[]] = [[]] := by
        rw [dos_normpath_eq_spec]
        decide
      have e1 : List.map pyStrip (pySplit '\\' ['\\', 'A', '\\', '.', '.', '\\', 'B']) =
          [[], ['A'], ['.', '.'], ['B']] := by decide
      have e2 : List.map pyStrip (pySplit '\\' ['\\', 'B']) = [[], ['B']] := by decide
      simp [native_path_elements, idConv, hr, e1, e2, h1, h2, walkElements]

/-- Generation relation in the claim's words, with no newline restriction:
    a question mark generates any one character, a star any run of
    characters, and every other mask character exactly itself. -/
inductive WildGen : List Char → List Char → Prop where
  | nil : WildGen [] []
  | one {ms : List Char} {n : Char} {ns : List Char} :
      WildGen ms ns → WildGen ('?' :: ms) (n :: ns)
  | star {ms pre post : List Char} :
      WildGen ms post → WildGen ('*' :: ms) (pre ++ post)
  | lit {c : Char} {ms ns : List Char} :
      c ≠ '?' → c ≠ '*' → WildGen ms ns → WildGen (c :: ms) (c :: ns)

/-- Generation relation of the compiled regex: as `WildGen`, except that the
    regex dot generates no newline, so the question mark generates any one
    non-newline character and the star any run of non-newline characters. -/
inductive WildRe : List Char → List Char → Prop where
  | nil : WildRe [] []
  | one {ms : List Char} {n : Char} {ns : List Char} :
      n ≠ nlChar → WildRe ms ns → WildRe ('?' :: ms) (n :: ns)
  | star {ms pre post : List Char} :
      (∀ a ∈ pre, a ≠ nlChar) → WildRe ms post → WildRe ('*' :: ms) (pre ++ post)
  | lit {c : Char} {ms ns : List Char} :
      c ≠ '?' → c ≠ '*' → WildRe ms ns → WildRe (c :: ms) (c :: ns)

theorem wildRe_lit_inv {c : Char} {ms name : List Char} (hq : c ≠ '?') (hs : c ≠ '*')
    (hw : WildRe (c :: ms) name) : ∃ ns, name = c :: ns ∧ WildRe ms ns := by
  cases hw with
  | one hn hm => exact absurd rfl hq
  | star hpre hm => exact absurd rfl hs
  | lit h1 h2 hm => exact ⟨_, rfl, hm⟩

/-- Claim C7 counterexample: the newline candidate is generated by the
    question-mark pattern in the claim's sense, yet `match_wildcard` rejects
    it, because the compiled regex dot does not match a newline. -/
theorem C7_counterexample :
    WildGen ['?'] [nlChar] ∧ match_wildcard [nlChar] ['?'] = false :=
  ⟨WildGen.one WildGen.nil, by decide⟩

/-- Claim C7 (amended): `match_wildcard` returns true exactly when the whole
    candidate is generated by the pattern, where a question mark matches
    exactly one non-newline character, a star matches zero or more
    non-newline characters, every other pattern character matches itself
    literally and case-sensitively, the match is anchored at both ends, and
    the empty pattern matches only the empty candidate. -/
theorem C7_wildcard_semantics :
    ∀ (name mask : List Char), match_wildcard name mask = true ↔ WildRe mask name := by
  intro name mask
  induction mask generalizing name with
  | nil =>
    cases name with
    | nil =>
      constructor
      · intro _
        exact WildRe.nil
      · intro _
        rfl
    | cons n ns =>
      constructor
      · intro h
        simp [match_wildcard] at h
      · intro hw
        cases hw
  | cons c ms ih =>
    by_cases hq : c = '?'
    · subst hq
      cases name with
      | nil =>
        constructor
        · intro h
          rw [show match_wildcard [] ('?' :: ms) = false from rfl] at h
          cases h
        · intro hw
          cases hw
      | cons n ns =>
        rw [show match_wildcard (n :: ns) ('?' :: ms) =
          (decide (n ≠ nlChar) && match_wildcard ns ms) from rfl]
        rw [Bool.and_eq_true, decide_eq_true_iff]
        constructor
        · rintro ⟨hn, hm⟩
          exact WildRe.one hn ((ih ns).mp hm)
        · intro hw
          cases hw with
          | one hn hm => exact ⟨hn, (ih ns).mpr hm⟩
          | lit h1 h2 hm => exact absurd rfl h1
    · by_cases hs : c = '*'
      · subst hs
        rw [show match_wildcard name ('*' :: ms) =
          (List.range (name.length + 1)).any (fun k =>
            (name.take k).all (fun a => decide (a ≠ nlChar)) &&
            match_wildcard (name.drop k) ms) from rfl]
        rw [List.any_eq_true]
        constructor
        · rintro ⟨k, hk, hp⟩
          rw [Bool.and_eq_true] at hp
          obtain ⟨hall, hm⟩ := hp
          have hpre : ∀ a ∈ name.take k, a ≠ nlChar := by
            intro a ha
            have h0 := List.all_eq_true.mp hall a ha
            simpa using h0
          have hw := WildRe.star hpre ((ih (name.drop k)).mp hm)
          rwa [List.take_append_drop] at hw
        · intro hw
          cases hw with
          | star hpre hm =>
            rename_i pre post
            refine ⟨pre.length, ?_, ?_⟩
            · rw [List.mem_range, List.length_append]
              omega
            · rw [Bool.and_eq_true]
              constructor
              · rw [List.take_left, List.all_eq_true]
                intro a ha
                simpa using hpre a ha
              · rw [List.drop_left]
                exact (ih post).mpr hm
          | lit h1 h2 hm => exact absurd rfl h2
      · cases name with
        | nil =>
          constructor
          · intro h
            rw [match_wildcard] at h
            rw [if_neg hq, if_neg hs] at h
            simp at h
          · intro hw
            obtain ⟨ns, hns, -⟩ := wildRe_lit_inv hq hs hw
            cases hns
        | cons n ns =>
          rw [match_wildcard, if_neg hq, if_neg hs]
          show (decide (n = c) && match_wildcard ns ms) = true ↔ _
          rw [Bool.and_eq_true, decide_eq_true_iff]
          constructor
          · rintro ⟨rfl, hm⟩
            exact WildRe.lit hq hs ((ih ns).mp hm)
          · intro hw
            obtain ⟨ns2, hns, hm⟩ := wildRe_lit_inv hq hs hw
            rw [List.cons.injEq] at hns
            refine ⟨hns.1, ?_⟩
            rw [hns.2]
            exact (ih ns2).mpr hm

/-! Supporting facts: `sortNames` really is a sort — its output is ascending
    in the byte order `strLe` and is a permutation of its input, so it agrees
    with Python's `sorted` on directory listings. -/

theorem strLe_trans : ∀ {a b c : List Char}, strLe a b = true → strLe b c = true →
    strLe a c = true
  | [], _, _, _, _ => rfl
  | _ :: _, [], _, h1, _ => by cases h1
  | _ :: _, _ :: _, [], _, h2 => by cases h2
  | x :: xs, y :: ys, z :: zs, h1, h2 => by
    simp only [strLe, Bool.or_eq_true, Bool.and_eq_true, decide_eq_true_iff] at h1 h2 ⊢
    rcases h1 with h1 | ⟨rfl, h1⟩
    · rcases h2 with h2 | ⟨rfl, h2⟩
      · left
        omega
      · left
        exact h1
    · rcases h2 with h2 | ⟨rfl, h2⟩
      · left
        exact h2
      · right
        exact ⟨rfl, strLe_trans h1 h2⟩

theorem strLe_total : ∀ a b : List Char, strLe a b = true ∨ strLe b a = true
  | [], _ => Or.inl rfl
  | _ :: _, [] => Or.inr rfl
  | x :: xs, y :: ys => by
    simp only [strLe, Bool.or_eq_true, Bool.and_eq_true, decide_eq_true_iff]
    rcases Nat.lt_trichotomy x.toNat y.toNat with h | h | h
    · exact Or.inl (Or.inl h)
    · have hxy : x = y := char_toNat_inj h
      subst hxy
      rcases strLe_total xs ys with h2 | h2
      · exact Or.inl (Or.inr ⟨rfl, h2⟩)
      · exact Or.inr (Or.inr ⟨rfl, h2⟩)
    · exact Or.inr (Or.inl h)

theorem sortInsert_pairwise {x : List Char} {l : List (List Char)}
    (h : l.Pairwise (fun a b => strLe a b = true)) :
    (sortInsert x l).Pairwise (fun a b => strLe a b = true) := by
  induction l with
  | nil => simp [sortInsert]
  | cons a t ih =>
    rw [List.pairwise_cons] at h
    obtain ⟨ha, ht⟩ := h
    rw [sortInsert]
    split
    · rename_i hxa
      rw [List.pairwise_cons]
      refine ⟨?_, List.pairwise_cons.mpr ⟨ha, ht⟩⟩
      intro b hb
      rcases List.mem_cons.mp hb with rfl | hb
      · exact hxa
      · exact strLe_trans hxa (ha b hb)
    · rename_i hxa
      rw [List.pairwise_cons]
      refine ⟨?_, ih ht⟩
      intro b hb
      rcases mem_sortInsert.mp hb with rfl | hb
      · rcases strLe_total a b with h2 | h2
        · exact h2
        · exact absurd h2 hxa
      · exact ha b hb

theorem sortInsert_perm (x : List Char) (l : List (List Char)) :
    (sortInsert x l).Perm (x :: l) := by
  induction l with
  | nil => exact List.Perm.refl _
  | cons a t ih =>
    rw [sortInsert]
    split
    · exact List.Perm.refl _
    · exact (ih.cons a).trans (List.Perm.swap x a t)

theorem sortNames_pairwise (l : List (List Char)) :
    (sortNames l).Pairwise (fun a b => strLe a b = true) := by
  induction l with
  | nil => simp [sortNames]
  | cons a t ih => exact sortInsert_pairwise ih

theorem sortNames_perm (l : List (List Char)) : (sortNames l).Perm l := by
  induction l with
  | nil => exact List.Perm.refl _
  | cons a t ih => exact (sortInsert_perm a (sortNames t)).trans (ih.cons a)
